import Mathlib

/-!
# Verification of the CFG-based HTTP request-line validation engine

Shallow embedding of the grammar validation engine of the CFG QODER
repository: the tokenizer (`tokenize_request`), the grammar model, the
bottom-up chart recognizer, the parse-tree builder, and the diagnostic
analyzer, together with proofs of the specified properties.

Strings are embedded as `List Char`; token sequences as `List (List Char)`.
-/

namespace CfgQoder

/-- A raw character string (Python `str` in the source). -/
abbrev Str := List Char

/-! ## Tokenizer

Embedded from `tokenize_request` (HTTPRequestCFGParser, documented source):

```python
def tokenize_request(self, request_line: str) -> List[str]:
    normalized = re.sub(r'\s+', ' ', request_line.strip())
    tokens = []
    current_token = ""
    for char in normalized:
        if char == ' ':
            if current_token:
                tokens.append(current_token)
                current_token = ""
            tokens.append(char)  # Space as separate token
        else:
            current_token += char
    if current_token:
        tokens.append(current_token)
    return tokens
```
-/

/-- Python's `\s` / `str.strip` whitespace on ASCII input. -/
def isWS (c : Char) : Bool :=
  c = ' ' || c = '\t' || c = '\n' || c = '\r' || c = '\x0b' || c = '\x0c'

/-- Left part of Python `str.strip`. -/
def lstrip (s : Str) : Str := s.dropWhile isWS

/-- Right part of Python `str.strip`. -/
def rstrip (s : Str) : Str := (s.reverse.dropWhile isWS).reverse

/-- Python `request_line.strip()`. -/
def pstrip (s : Str) : Str := rstrip (lstrip s)

/-- Python `re.sub(r'\s+', ' ', ·)`: replace each maximal whitespace run by
a single space.  The boolean flag records whether the previous consumed
character belonged to a whitespace run. -/
def collapseWS : Bool → Str → Str
  | _, [] => []
  | prev, c :: cs =>
    if isWS c then
      if prev then collapseWS true cs else ' ' :: collapseWS true cs
    else c :: collapseWS false cs

/-- `normalized = re.sub(r'\s+', ' ', request_line.strip())`. -/
def normalizeLine (s : Str) : Str := collapseWS false (pstrip s)

/-- The splitting loop of `tokenize_request`: `cur` is `current_token`. -/
def tokAux : Str → Str → List Str
  | cur, [] => if cur = [] then [] else [cur]
  | cur, c :: cs =>
    if c = ' ' then
      if cur = [] then [' '] :: tokAux [] cs
      else cur :: [' '] :: tokAux [] cs
    else tokAux (cur ++ [c]) cs

/-- `tokenize_request` from the source: normalize, then split into
alternating non-space tokens and single-space separator tokens. -/
def tokenize_request (s : Str) : List Str := tokAux [] (normalizeLine s)

/-! ### Word decomposition

`wordsAux [] s` is the list of maximal non-whitespace runs ("words") of
`s`.  The characterization theorem below shows the tokenizer emits exactly
the words of the input line interspersed with single-space tokens. -/

/-- Maximal non-whitespace runs of a string (`cur` accumulates the run in
progress). -/
def wordsAux : Str → Str → List Str
  | cur, [] => if cur = [] then [] else [cur]
  | cur, c :: cs =>
    if isWS c then
      if cur = [] then wordsAux [] cs else cur :: wordsAux [] cs
    else wordsAux (cur ++ [c]) cs

/-- Fusion of `collapseWS` followed by the splitting loop `tokAux` into a
single left-to-right pass. -/
def fuseTok : Bool → Str → Str → List Str
  | _, cur, [] => if cur = [] then [] else [cur]
  | prev, cur, c :: cs =>
    if isWS c then
      if prev then fuseTok true cur cs
      else if cur = [] then [' '] :: fuseTok true [] cs
      else cur :: [' '] :: fuseTok true [] cs
    else fuseTok false (cur ++ [c]) cs

/-- Concatenation of a token sequence back into a character string. -/
def concatAll (l : List Str) : Str := l.foldr (· ++ ·) []

/-- No two adjacent tokens of the sequence are both the single-space
separator token. -/
def noConsecSpaceTok : List Str → Prop
  | [] => True
  | [_] => True
  | a :: b :: r => ¬(a = [' '] ∧ b = [' ']) ∧ noConsecSpaceTok (b :: r)

/-! ## Grammar model

Modelled from the spec: the grammar-validation core of the repository
delegates recognition to an external chart-parsing library (NLTK's
`ChartParser`), whose code is not part of the repository sources; the spec
(§3, §4.2, §4.3) prescribes the data model and the bottom-up chart
algorithm re-implemented here. -/

/-- Modelled from the spec: a grammar symbol is a tagged variant of
terminal (literal string, matched by exact text equality) and
non-terminal (name). -/
inductive Symbol where
  | tm : Str → Symbol
  | nt : String → Symbol
deriving DecidableEq, Repr

/-- Modelled from the spec: a grammar is a start non-terminal together
with a sequence of productions `head → body` (a body may be empty,
representing an epsilon rule; several productions may share a head). -/
structure Grammar where
  start : String
  prods : List (String × List Symbol)
deriving DecidableEq, Repr

/-- The contiguous token span `[i, j)` of a token sequence. -/
def slice (toks : List Str) (i j : Nat) : List Str := (toks.drop i).take (j - i)

/-- Derivability semantics: `SDer G form w` holds when the sentential form
`form` (a sequence of symbols) derives the token sequence `w` under the
productions of `G`.  A single non-terminal `n` derives `w` iff
`SDer G [Symbol.nt n] w`. -/
inductive SDer (G : Grammar) : List Symbol → List Str → Prop where
  | nil : SDer G [] []
  | tm {t rest w} : SDer G rest w → SDer G (Symbol.tm t :: rest) (t :: w)
  | nt {n body rest w1 w2} : (n, body) ∈ G.prods → SDer G body w1 →
      SDer G rest w2 → SDer G (Symbol.nt n :: rest) (w1 ++ w2)

/-! ## Chart recognizer

Modelled from the spec (§4.3): a chart cell records that a non-terminal
derives exactly the token span `[i, j)`.  Spans of length 1 come from
productions whose body matches a single token, longer spans from
splitting the body across all split points; epsilon bodies cover any
zero-length span.  The chart is the least fixed point of the one-step
closure, reached by iterating the step one more time than the number of
possible chart items. -/

/-- A chart item: non-terminal name and token span. -/
abbrev ChartItem := String × Nat × Nat

/-- Modelled from the spec: does symbol `s` cover the span `[i, k)`,
given the chart built so far?  Terminals match a single token by exact
text equality; non-terminals by chart membership. -/
def matchSym (c : Finset ChartItem) (toks : List Str) :
    Symbol → Nat → Nat → Bool
  | Symbol.tm t, i, k => decide (k = i + 1) && decide (toks.get? i = some t)
  | Symbol.nt m, i, k => decide ((m, i, k) ∈ c)

/-- Modelled from the spec: does the production body cover the span
`[i, j)`, splitting at every possible split point?  An empty body covers
exactly the zero-length spans. -/
def matchBody (c : Finset ChartItem) (toks : List Str) :
    List Symbol → Nat → Nat → Bool
  | [], i, j => decide (i = j)
  | s :: rest, i, j =>
    (List.range' i (j - i + 1)).any
      (fun k => matchSym c toks s i k && matchBody c toks rest k j)

/-- All possible chart items: a production head together with a span of
the token sequence. -/
def chartUniverse (G : Grammar) (toks : List Str) : Finset ChartItem :=
  ((G.prods.map Prod.fst).toFinset ×ˢ
      (Finset.range (toks.length + 1) ×ˢ Finset.range (toks.length + 1))).filter
    (fun x => x.2.1 ≤ x.2.2)

/-- One bottom-up closure step: add every item justified by some
production whose body is covered by the current chart. -/
def chartStep (G : Grammar) (toks : List Str) (c : Finset ChartItem) :
    Finset ChartItem :=
  c ∪ (chartUniverse G toks).filter
    (fun x => G.prods.any
      (fun p => decide (p.1 = x.1) && matchBody c toks p.2 x.2.1 x.2.2))

/-- The completed chart: iterate the closure step to its fixed point. -/
def chart (G : Grammar) (toks : List Str) : Finset ChartItem :=
  (chartStep G toks)^[(chartUniverse G toks).card + 1] ∅

/-! ## Parse trees and the tree builder -/

/-- Modelled from the spec: a parse-tree node carries a label and a span;
terminal nodes (leaves) carry the token text and its position (the span is
`[i, i+1)`), internal nodes carry the non-terminal name, the span and the
ordered children. -/
inductive PTree where
  | leaf : Str → Nat → PTree
  | node : String → Nat → Nat → List PTree → PTree

/-- Start of a node's span. -/
def spanStart : PTree → Nat
  | PTree.leaf _ i => i
  | PTree.node _ i _ _ => i

/-- End of a node's span. -/
def spanEnd : PTree → Nat
  | PTree.leaf _ i => i + 1
  | PTree.node _ _ j _ => j

/-- The grammar symbol a tree node is rooted at. -/
def symOf : PTree → Symbol
  | PTree.leaf t _ => Symbol.tm t
  | PTree.node n _ _ _ => Symbol.nt n

mutual

/-- The leaves of a parse tree, in order. -/
def leavesOf : PTree → List Str
  | PTree.leaf t _ => [t]
  | PTree.node _ _ _ cs => leavesList cs

/-- The leaves of a forest, in order. -/
def leavesList : List PTree → List Str
  | [] => []
  | t :: ts => leavesOf t ++ leavesList ts

end

mutual

/-- Height of a parse tree (a leaf has height 1). -/
def theight : PTree → Nat
  | PTree.leaf _ _ => 1
  | PTree.node _ _ _ cs => theightList cs + 1

/-- Maximum height over a forest. -/
def theightList : List PTree → Nat
  | [] => 0
  | t :: ts => max (theight t) (theightList ts)

end

/-- The spans of a forest tile the span `[i, j)`: contiguous,
non-overlapping, and their union is the whole span. -/
def chainOK : Nat → Nat → List PTree → Prop
  | i, j, [] => i = j
  | i, j, t :: ts => spanStart t = i ∧ chainOK (spanEnd t) j ts

mutual

/-- The span-coverage invariant of §4.4: every leaf corresponds to exactly
one input token with matching span, and every internal node's children
spans are contiguous, non-overlapping, and union to the parent's span. -/
def spanOK (toks : List Str) : PTree → Prop
  | PTree.leaf t i => toks.get? i = some t
  | PTree.node _ i j cs => chainOK i j cs ∧ spanOKList toks cs

/-- `spanOK` for every tree of a forest. -/
def spanOKList (toks : List Str) : List PTree → Prop
  | [] => True
  | t :: ts => spanOK toks t ∧ spanOKList toks ts

end

/-- All forests deriving the span `[i, j)` from the symbol sequence
`body`, splitting at every split point, where `bs` builds the trees of a
single symbol over a span. -/
def buildSeqWith (bs : Symbol → Nat → Nat → List PTree) :
    List Symbol → Nat → Nat → List (List PTree)
  | [], i, j => if i = j then [[]] else []
  | s :: rest, i, j =>
    (List.range' i (j - i + 1)).flatMap
      (fun k => (bs s i k).flatMap
        (fun t => (buildSeqWith bs rest k j).map (fun cs => t :: cs)))

/-- Modelled from the spec (§4.4): all parse trees rooted at symbol `s`
over the span `[i, j)`, reconstructed recursively; the depth bound `f`
makes the enumeration finite (the spec leaves the tree set unbounded for
cyclic grammars). -/
def buildSym (G : Grammar) (toks : List Str) :
    Nat → Symbol → Nat → Nat → List PTree
  | 0, _, _, _ => []
  | _ + 1, Symbol.tm t, i, j =>
    if j = i + 1 ∧ toks.get? i = some t then [PTree.leaf t i] else []
  | f + 1, Symbol.nt n, i, j =>
    (G.prods.filter (fun p => decide (p.1 = n))).flatMap
      (fun p => (buildSeqWith (buildSym G toks f) p.2 i j).map
        (fun cs => PTree.node n i j cs))

/-- All forests deriving the span `[i, j)` from the symbol sequence
`body` with per-tree depth bound `f`. -/
def buildSeq (G : Grammar) (toks : List Str) (f : Nat)
    (body : List Symbol) (i j : Nat) : List (List PTree) :=
  buildSeqWith (buildSym G toks f) body i j

/-- Well-formed derivation forests: `WFSeq G toks body i j cs` holds when
the forest `cs` is a derivation of the token span `[i, j)` from the symbol
sequence `body`, with correctly recorded spans. -/
inductive WFSeq (G : Grammar) (toks : List Str) :
    List Symbol → Nat → Nat → List PTree → Prop where
  | nil {i} : WFSeq G toks [] i i []
  | tm {t rest i j ts} : toks.get? i = some t →
      WFSeq G toks rest (i + 1) j ts →
      WFSeq G toks (Symbol.tm t :: rest) i j (PTree.leaf t i :: ts)
  | nt {n body rest i k j cs ts} : (n, body) ∈ G.prods →
      WFSeq G toks body i k cs → WFSeq G toks rest k j ts →
      WFSeq G toks (Symbol.nt n :: rest) i j (PTree.node n i k cs :: ts)

/-! ## Diagnostics and the validation interface -/

/-- Modelled from the spec (§4.5, §7): the diagnostic categories. -/
inductive DiagCategory where
  | structuralMismatch
  | missingSeparator
  | unexpectedTrailingInput
  | noDerivation
deriving DecidableEq, Repr

/-- Modelled from the spec (§3): a diagnostic with message, position
(token span) and category. -/
structure Diagnostic where
  message : String
  position : Nat × Nat
  category : DiagCategory
deriving DecidableEq, Repr

/-- Modelled from the spec (§4.5): the length of the longest input prefix
that some non-terminal derives according to the partial chart ("the span
that the best partial derivation could cover"). -/
def bestCover (G : Grammar) (toks : List Str) (c : Finset ChartItem) : Nat :=
  ((List.range (toks.length + 1)).filter
    (fun j => G.prods.any (fun p => decide ((p.1, 0, j) ∈ c)))).foldr max 0

/-- Modelled from the spec (§4.5): the ranked, deterministic diagnostic
policy over the partial chart, run only when recognition failed.
Priority order: structural mismatch at position 0, a missing separator at
an internal boundary where both sides are individually derivable, trailing
input beyond the best derivable prefix, and a generic no-derivation
fallback. -/
def analyzeFailure (G : Grammar) (toks : List Str) (c : Finset ChartItem) :
    List Diagnostic :=
  let n := toks.length
  if n = 0 || !(G.prods.any (fun p => decide ((p.1, 0, 1) ∈ c))) then
    [⟨"structural mismatch at the start of the input", (0, min 1 n),
      DiagCategory.structuralMismatch⟩]
  else
    match (List.range' 1 (n - 1)).find?
        (fun k => G.prods.any (fun p => decide ((p.1, 0, k) ∈ c)) &&
          G.prods.any (fun q => decide ((q.1, k, n) ∈ c))) with
    | some k =>
      [⟨"missing separator between derivable spans", (k, k),
        DiagCategory.missingSeparator⟩]
    | none =>
      if bestCover G toks c < n then
        [⟨"unexpected trailing input", (bestCover G toks c, n),
          DiagCategory.unexpectedTrailingInput⟩]
      else
        [⟨"no derivation of the input from the start symbol", (0, n),
          DiagCategory.noDerivation⟩]

/-- The validation outcome, mirroring the result dictionary of
`validate_request` in the source (`is_valid`, `request_line`, `tokens`,
`parse_trees`, `errors`, `timestamp`). -/
structure ValidationResult where
  is_valid : Bool
  request_line : Str
  tokens : List Str
  parse_trees : List PTree
  errors : List Diagnostic
  timestamp : Str

/-- Depth bound used by the tree builder inside `validate_request`. -/
def buildFuel (G : Grammar) (toks : List Str) : Nat :=
  (G.prods.length + 2) * (toks.length + 2)

/-- Modelled from the spec (§6) and the source `validate_request`:
tokenize the line, run the chart recognizer, and either build the parse
trees (success) or run the diagnostic analyzer (failure).  The `now`
argument stands for the ambient clock read by the source
(`datetime.now().isoformat()`); it only ever reaches the `timestamp`
field. -/
def validate_request (G : Grammar) (now : Str) (line : Str) :
    ValidationResult :=
  let toks := tokenize_request line
  let n := toks.length
  let c := chart G toks
  if (G.start, 0, n) ∈ c then
    { is_valid := true
      request_line := line
      tokens := toks
      parse_trees := buildSym G toks (buildFuel G toks) (Symbol.nt G.start) 0 n
      errors := []
      timestamp := now }
  else
    { is_valid := false
      request_line := line
      tokens := toks
      parse_trees := []
      errors := analyzeFailure G toks c
      timestamp := now }

/-- Extending a grammar with one additional alternative production for a
non-terminal. -/
def addProduction (G : Grammar) (n : String) (body : List Symbol) : Grammar :=
  { start := G.start, prods := G.prods ++ [(n, body)] }

/-- The grammar of spec Example 1: `S → "A" SP "B"`. -/
def exampleGrammar : Grammar :=
  { start := "S", prods := [("S", [Symbol.tm ['A'], Symbol.tm [' '], Symbol.tm ['B']])] }

/-- An ambiguous grammar admitting exactly two derivations of the input
`"x"`: `S → "x"`, `S → A`, `A → "x"` (spec Example 3 shape). -/
def ambGrammar : Grammar :=
  { start := "S"
    prods := [("S", [Symbol.tm ['x']]), ("S", [Symbol.nt "A"]),
      ("A", [Symbol.tm ['x']])] }

/-! ## Frontend tree statistics

Embedded from the `ParseTree` interface (`frontend/src/types/index_new.ts`:
`label: string; children: ParseTree[]`) and the tree-statistics helpers of
`AIAssistant.tsx` (`getNodeCount`, `getNonTerminalCount`,
`getTerminalCount`). -/

/-- The frontend parse-tree shape: a label and a children array. -/
inductive TSParseTree where
  | mk : String → List TSParseTree → TSParseTree

mutual

/-- `getNodeCount`: one for the node itself plus the node counts of all
children (`count += children.reduce((sum, child) => sum + ..., 0)`). -/
def getNodeCount : TSParseTree → Nat
  | TSParseTree.mk _ cs => 1 + nodeCountList cs

/-- Sum of `getNodeCount` over a children array. -/
def nodeCountList : List TSParseTree → Nat
  | [] => 0
  | t :: ts => getNodeCount t + nodeCountList ts

end

mutual

/-- `getNonTerminalCount`: a node with a nonempty children array counts as
one non-terminal plus the non-terminal counts of its children; a childless
node counts zero. -/
def getNonTerminalCount : TSParseTree → Nat
  | TSParseTree.mk _ [] => 0
  | TSParseTree.mk _ (t :: ts) => 1 + ntCountList (t :: ts)

/-- Sum of `getNonTerminalCount` over a children array. -/
def ntCountList : List TSParseTree → Nat
  | [] => 0
  | t :: ts => getNonTerminalCount t + ntCountList ts

end

mutual

/-- `getTerminalCount`: a childless node is one terminal; otherwise the
sum over the children. -/
def getTerminalCount : TSParseTree → Nat
  | TSParseTree.mk _ [] => 1
  | TSParseTree.mk _ (t :: ts) => tCountList (t :: ts)

/-- Sum of `getTerminalCount` over a children array. -/
def tCountList : List TSParseTree → Nat
  | [] => 0
  | t :: ts => getTerminalCount t + tCountList ts

end

theorem space_isWS : isWS ' ' = true := by decide

theorem not_space_of_not_isWS {c : Char} (h : ¬ isWS c = true) : ¬ c = ' ' := by
  intro hc; exact h (by simp [hc, isWS])

/-- `tokAux` after `collapseWS` is the fused pass. -/
theorem tokAux_collapseWS (u : Str) :
    ∀ prev cur, tokAux cur (collapseWS prev u) = fuseTok prev cur u := by
  induction u with
  | nil => intro prev cur; rfl
  | cons c cs ih =>
    intro prev cur
    by_cases hc : isWS c = true
    · by_cases hp : prev
      · simp [collapseWS, hc, hp, fuseTok, ih]
      · have hsp : (' ' = ' ') = True := by simp
        by_cases hcur : cur = []
        · simp [collapseWS, hc, hp, fuseTok, tokAux, hcur, ih]
        · simp [collapseWS, hc, hp, fuseTok, tokAux, hcur, ih]
    · have hcs : ¬ c = ' ' := not_space_of_not_isWS hc
      simp [collapseWS, hc, fuseTok, tokAux, hcs, ih]

/-- Helper: the last element of a list is a member. -/
theorem mem_of_getLast?_eq {α : Type} {l : List α} {x : α}
    (h : l.getLast? = some x) : x ∈ l := by
  induction l with
  | nil => simp [List.getLast?] at h
  | cons a as ih =>
    cases as with
    | nil => simp [List.getLast?] at h; simp [h]
    | cons b bs =>
      rw [List.getLast?_cons_cons] at h
      exact List.mem_cons_of_mem a (ih h)

/-- The string has no trailing whitespace character. -/
def noTrailWS (s : Str) : Prop := ∀ c, s.getLast? = some c → isWS c = false

/-- The string has no leading whitespace character. -/
def noLeadWS (s : Str) : Prop := ∀ c, s.head? = some c → isWS c = false

theorem noTrailWS_cons {c : Char} {cs : Str} (h : noTrailWS (c :: cs))
    (hne : cs ≠ []) : noTrailWS cs := by
  intro x hx
  apply h
  cases cs with
  | nil => exact absurd rfl hne
  | cons b bs => rw [List.getLast?_cons_cons]; exact hx

theorem noTrailWS_singleton {c : Char} (h : noTrailWS [c]) : isWS c = false :=
  h c rfl

/-- Words accumulated onto a nonempty current run are never the empty
list. -/
theorem wordsAux_ne_nil_of_cur : ∀ (l : List Char) (cur : Str), cur ≠ [] →
    wordsAux cur l ≠ [] := by
  intro l
  induction l with
  | nil => intro cur h; simp [wordsAux, h]
  | cons c cs ih =>
    intro cur h
    by_cases hc : isWS c = true
    · simp [wordsAux, hc, h]
    · have he : wordsAux cur (c :: cs) = wordsAux (cur ++ [c]) cs := by
        simp [wordsAux, hc]
      rw [he]
      exact ih (cur ++ [c]) (by simp)

/-- A string containing a non-whitespace character has at least one word.  -/
theorem wordsAux_ne_nil : ∀ (l : List Char) (cur : Str),
    (∃ c ∈ l, isWS c = false) → wordsAux cur l ≠ [] := by
  intro l
  induction l with
  | nil => rintro cur ⟨c, hc, -⟩; exact absurd hc (List.not_mem_nil c)
  | cons c cs ih =>
    rintro cur ⟨d, hd, hdws⟩
    by_cases hc : isWS c = true
    · have hdcs : d ∈ cs := by
        rcases List.mem_cons.mp hd with rfl | h
        · exact absurd hc (by simp [hdws])
        · exact h
      by_cases hcur : cur = []
      · simpa [wordsAux, hc, hcur] using ih [] ⟨d, hdcs, hdws⟩
      · simp [wordsAux, hc, hcur]
    · have he : wordsAux cur (c :: cs) = wordsAux (cur ++ [c]) cs := by
        simp [wordsAux, hc]
      rw [he]
      exact wordsAux_ne_nil_of_cur cs (cur ++ [c]) (by simp)

/-- Dropping a leading all-whitespace block does not change the words. -/
theorem wordsAux_ws_skip : ∀ (t y : Str), (∀ c ∈ t, isWS c = true) →
    wordsAux [] (t ++ y) = wordsAux [] y := by
  intro t
  induction t with
  | nil => intro y _; rfl
  | cons c cs ih =>
    intro y h
    have hc : isWS c = true := h c (List.mem_cons_self c cs)
    simp only [List.cons_append, wordsAux, hc, if_true, reduceIte]
    exact ih y (fun d hd => h d (List.mem_cons_of_mem c hd))

/-- Appending a trailing all-whitespace block does not change the words. -/
theorem wordsAux_ws_suffix : ∀ (x t : Str) (cur : Str),
    (∀ c ∈ t, isWS c = true) → wordsAux cur (x ++ t) = wordsAux cur x := by
  intro x
  induction x with
  | nil =>
    intro t
    induction t with
    | nil => intro cur _; rfl
    | cons c cs ih =>
      intro cur h
      have hc : isWS c = true := h c (List.mem_cons_self c cs)
      have hcs : ∀ d ∈ cs, isWS d = true :=
        fun d hd => h d (List.mem_cons_of_mem c hd)
      by_cases hcur : cur = []
      · simpa [wordsAux, hc, hcur] using ih [] hcs
      · simpa [wordsAux, hc, hcur] using
          congrArg (cur :: ·) (ih [] hcs)
  | cons c cs ih =>
    intro t cur h
    by_cases hc : isWS c = true
    · by_cases hcur : cur = []
      · simpa [wordsAux, hc, hcur] using ih t [] h
      · simpa [wordsAux, hc, hcur] using congrArg (cur :: ·) (ih t [] h)
    · simpa [wordsAux, hc] using ih t (cur ++ [c]) h

/-- The first character surviving `dropWhile` fails the predicate. -/
theorem head?_dropWhile_false (p : Char → Bool) : ∀ (l : Str) (c : Char),
    (l.dropWhile p).head? = some c → p c = false := by
  intro l
  induction l with
  | nil => intro c h; simp [List.dropWhile] at h
  | cons a as ih =>
    intro c h
    by_cases ha : p a = true
    · rw [List.dropWhile_cons_of_pos ha] at h
      exact ih c h
    · rw [List.dropWhile_cons_of_neg ha] at h
      simp at h
      subst h
      exact Bool.eq_false_iff.mpr ha

/-- Decompose a list into its `rstrip` and a trailing whitespace block. -/
theorem rstrip_decomp (l : Str) :
    ∃ t, l = rstrip l ++ t ∧ ∀ c ∈ t, isWS c = true := by
  refine ⟨(l.reverse.takeWhile isWS).reverse, ?_, ?_⟩
  · have h := List.takeWhile_append_dropWhile (p := isWS) (l := l.reverse)
    calc l = l.reverse.reverse := (l.reverse_reverse).symm
      _ = (l.reverse.takeWhile isWS ++ l.reverse.dropWhile isWS).reverse := by
          rw [h]
      _ = rstrip l ++ (l.reverse.takeWhile isWS).reverse := by
          rw [List.reverse_append]; rfl
  · intro c hc
    rw [List.mem_reverse] at hc
    exact List.mem_takeWhile_imp hc

/-- Decompose a list into a leading whitespace block and its `lstrip`. -/
theorem lstrip_decomp (l : Str) :
    ∃ t, l = t ++ lstrip l ∧ ∀ c ∈ t, isWS c = true := by
  refine ⟨l.takeWhile isWS, ?_, ?_⟩
  · rw [lstrip, List.takeWhile_append_dropWhile]
  · intro c hc; exact List.mem_takeWhile_imp hc

/-- Stripping does not change the word decomposition. -/
theorem wordsAux_pstrip (s : Str) : wordsAux [] (pstrip s) = wordsAux [] s := by
  obtain ⟨t1, h1, hws1⟩ := lstrip_decomp s
  obtain ⟨t2, h2, hws2⟩ := rstrip_decomp (lstrip s)
  calc wordsAux [] (pstrip s)
      = wordsAux [] (rstrip (lstrip s) ++ t2) :=
        (wordsAux_ws_suffix _ t2 [] hws2).symm
    _ = wordsAux [] (lstrip s) := by rw [← h2]
    _ = wordsAux [] (t1 ++ lstrip s) := (wordsAux_ws_skip t1 _ hws1).symm
    _ = wordsAux [] s := by rw [← h1]

/-- The stripped string has no leading whitespace. -/
theorem noLeadWS_pstrip (s : Str) : noLeadWS (pstrip s) := by
  intro c hc
  obtain ⟨t2, h2, -⟩ := rstrip_decomp (lstrip s)
  have hhead : (lstrip s).head? = some c := by
    rw [h2]
    cases hps : pstrip s with
    | nil => rw [hps] at hc; simp at hc
    | cons a as =>
      rw [hps] at hc
      simp at hc
      subst hc
      rw [pstrip] at hps
      rw [hps]
      rfl
  exact head?_dropWhile_false isWS s c hhead

/-- The stripped string has no trailing whitespace. -/
theorem noTrailWS_pstrip (s : Str) : noTrailWS (pstrip s) := by
  intro c hc
  rw [pstrip, rstrip, List.getLast?_reverse] at hc
  exact head?_dropWhile_false isWS (lstrip s).reverse c hc

theorem intersperse_cons_of_ne_nil {α : Type} (sep a : α) {l : List α}
    (h : l ≠ []) :
    List.intersperse sep (a :: l) = a :: sep :: List.intersperse sep l := by
  cases l with
  | nil => exact absurd rfl h
  | cons b bs => rfl

/-- On input without trailing whitespace, the fused normalize-and-split
pass produces exactly the words of the input separated by single-space
tokens.  The first component covers the state just after a whitespace run,
the second the state inside a word. -/
theorem fuseTok_eq_intersperse : ∀ (u : Str), noTrailWS u →
    (fuseTok true [] u = List.intersperse [' '] (wordsAux [] u)) ∧
    (∀ cur, cur ≠ [] →
      fuseTok false cur u = List.intersperse [' '] (wordsAux cur u)) := by
  intro u
  induction u with
  | nil =>
    intro _
    constructor
    · rfl
    · intro cur h; simp [fuseTok, wordsAux, h, List.intersperse]
  | cons c cs ih =>
    intro hnt
    by_cases hc : isWS c = true
    · have hcs_ne : cs ≠ [] := by
        intro h
        subst h
        exact absurd (noTrailWS_singleton hnt) (by simp [hc])
      have hnt' : noTrailWS cs := noTrailWS_cons hnt hcs_ne
      have ihs := ih hnt'
      have hlast : ∃ d ∈ cs, isWS d = false := by
        cases hgl : cs.getLast? with
        | none => rw [List.getLast?_eq_none_iff] at hgl; exact absurd hgl hcs_ne
        | some d => exact ⟨d, mem_of_getLast?_eq hgl, hnt' d hgl⟩
      have hwne : wordsAux [] cs ≠ [] := wordsAux_ne_nil cs [] hlast
      constructor
      · simp only [fuseTok, hc, if_true, reduceIte]
        rw [ihs.1]
        congr 1
        simp [wordsAux, hc]
      · intro cur hcur
        simp only [fuseTok, wordsAux, hc, hcur, if_true, reduceIte, if_neg hcur]
        rw [ihs.1, intersperse_cons_of_ne_nil [' '] cur hwne]
        simp
    · have hnt' : noTrailWS cs := by
        cases cs with
        | nil => intro x hx; simp [List.getLast?] at hx
        | cons b bs => exact noTrailWS_cons hnt (by simp)
      have ihs := ih hnt'
      constructor
      · simp only [fuseTok, hc, reduceIte]
        rw [ihs.2 ([] ++ [c]) (by simp)]
        simp [wordsAux, hc]
      · intro cur hcur
        simp only [fuseTok, wordsAux, hc, reduceIte]
        exact ihs.2 (cur ++ [c]) (by simp)

/-- Characterization of the tokenizer: `tokenize_request` emits exactly
the maximal non-whitespace runs of the input line, interspersed with
single-space separator tokens. -/
theorem tokenize_request_eq_intersperse (s : Str) :
    tokenize_request s = List.intersperse [' '] (wordsAux [] s) := by
  rw [tokenize_request, normalizeLine, tokAux_collapseWS, ← wordsAux_pstrip]
  have hnt := noTrailWS_pstrip s
  have hnl := noLeadWS_pstrip s
  cases hu : pstrip s with
  | nil => rfl
  | cons c cs =>
    have hc : isWS c = false := by
      apply hnl
      rw [hu]
      rfl
    rw [hu] at hnt
    have hnt' : noTrailWS cs := by
      cases cs with
      | nil => intro x hx; simp [List.getLast?] at hx
      | cons b bs => exact noTrailWS_cons hnt (by simp)
    have h2 := (fuseTok_eq_intersperse cs hnt').2 ([] ++ [c]) (by simp)
    calc fuseTok false [] (c :: cs)
        = fuseTok false ([] ++ [c]) cs := by simp [fuseTok, hc]
      _ = List.intersperse [' '] (wordsAux ([] ++ [c]) cs) := h2
      _ = List.intersperse [' '] (wordsAux [] (c :: cs)) := by
          congr 1
          simp [wordsAux, hc]

/-- Every word produced by `wordsAux` is nonempty and whitespace-free. -/
theorem wordsAux_word_shape : ∀ (l : Str) (cur : Str),
    (∀ c ∈ cur, isWS c = false) →
    ∀ w ∈ wordsAux cur l, w ≠ [] ∧ ∀ c ∈ w, isWS c = false := by
  intro l
  induction l with
  | nil =>
    intro cur hcur w hw
    by_cases h : cur = []
    · simp [wordsAux, h] at hw
    · simp [wordsAux, h] at hw
      subst hw
      exact ⟨h, hcur⟩
  | cons c cs ih =>
    intro cur hcur w hw
    by_cases hc : isWS c = true
    · by_cases h : cur = []
      · simp only [wordsAux, hc, if_true, reduceIte, h] at hw
        exact ih [] (by simp) w (by simpa [h] using hw)
      · simp only [wordsAux, hc, if_true, reduceIte, if_neg h] at hw
        rcases List.mem_cons.mp hw with rfl | hw'
        · exact ⟨h, hcur⟩
        · exact ih [] (by simp) w hw'
    · simp only [wordsAux, hc, reduceIte] at hw
      refine ih (cur ++ [c]) ?_ w hw
      intro d hd
      rcases List.mem_append.mp hd with hd' | hd'
      · exact hcur d hd'
      · simp at hd'
        subst hd'
        exact Bool.eq_false_iff.mpr hc

/-- Members of an interspersed list are the separator or a member of the
original list. -/
theorem mem_intersperse {α : Type} (sep : α) : ∀ (l : List α) (x : α),
    x ∈ List.intersperse sep l → x = sep ∨ x ∈ l := by
  intro l
  induction l with
  | nil => intro x hx; simp [List.intersperse] at hx
  | cons a t ih =>
    intro x hx
    cases t with
    | nil =>
      simp [List.intersperse] at hx
      simp [hx]
    | cons b r =>
      rw [show List.intersperse sep (a :: b :: r) =
            a :: sep :: List.intersperse sep (b :: r) from rfl] at hx
      rcases List.mem_cons.mp hx with rfl | hx'
      · right; exact List.mem_cons_self x (b :: r)
      · rcases List.mem_cons.mp hx' with rfl | hx''
        · left; rfl
        · rcases ih x hx'' with h | h
          · left; exact h
          · right; exact List.mem_cons_of_mem a h

theorem noConsecSpaceTok_cons {x : Str} {l : List Str}
    (hl : noConsecSpaceTok l)
    (hh : ∀ h, l.head? = some h → ¬(x = [' '] ∧ h = [' '])) :
    noConsecSpaceTok (x :: l) := by
  cases l with
  | nil => trivial
  | cons b r => exact ⟨hh b rfl, hl⟩

/-- Interspersing a separator between tokens that all differ from it never
puts two separators side by side. -/
theorem noConsec_intersperse : ∀ (l : List Str),
    (∀ w ∈ l, w ≠ [' ']) → noConsecSpaceTok (List.intersperse [' '] l) := by
  intro l
  induction l with
  | nil => intro _; trivial
  | cons a t ih =>
    intro h
    cases t with
    | nil => trivial
    | cons b r =>
      rw [show List.intersperse [' '] (a :: b :: r) =
            a :: [' '] :: List.intersperse [' '] (b :: r) from rfl]
      have hbr : noConsecSpaceTok (List.intersperse [' '] (b :: r)) :=
        ih (fun w hw => h w (List.mem_cons_of_mem a hw))
      have hb : b ≠ [' '] := h b (by simp)
      refine noConsecSpaceTok_cons ?_ ?_
      · refine noConsecSpaceTok_cons hbr ?_
        intro hd hhd hand
        have : hd = [' '] ∨ hd ∈ b :: r := by
          apply mem_intersperse
          cases r with
          | nil => simp [List.intersperse] at hhd; simp [hhd]
          | cons c r' =>
            rw [show List.intersperse [' '] (b :: c :: r') =
                  b :: [' '] :: List.intersperse [' '] (c :: r') from rfl] at hhd
            simp at hhd
            simp [hhd]
        -- the head of the interspersed tail is b, which is not a space
        cases r with
        | nil =>
          simp [List.intersperse] at hhd
          exact hb (hhd ▸ hand.2)
        | cons c r' =>
          rw [show List.intersperse [' '] (b :: c :: r') =
                b :: [' '] :: List.intersperse [' '] (c :: r') from rfl] at hhd
          simp at hhd
          exact hb (hhd ▸ hand.2)
      · intro hd hhd hand
        simp at hhd
        exact h a (by simp) (hand.1)

/-- Splicing the emitted tokens back together recovers the input of the
splitting loop. -/
theorem tokAux_concat : ∀ (l cur : Str), concatAll (tokAux cur l) = cur ++ l := by
  intro l
  induction l with
  | nil =>
    intro cur
    by_cases h : cur = []
    · simp [tokAux, h, concatAll]
    · simp [tokAux, h, concatAll]
  | cons c cs ih =>
    intro cur
    by_cases hc : c = ' '
    · subst hc
      by_cases h : cur = []
      · simp [tokAux, h, concatAll] at ih ⊢
        simpa [concatAll] using ih []
      · simp only [tokAux, if_true, reduceIte, if_neg h]
        show cur ++ ([' '] ++ concatAll (tokAux [] cs)) = cur ++ ' ' :: cs
        simpa [concatAll] using congrArg ([' '] ++ ·) (ih [])
    · simp only [tokAux, if_neg hc]
      rw [ih (cur ++ [c])]
      simp

/-- C9 supporting fact: words of the input, as emitted by the tokenizer,
never equal the separator token. -/
theorem wordsAux_ne_sep (s : Str) :
    ∀ w ∈ wordsAux [] s, w ≠ [' '] := by
  intro w hw hcontra
  have := (wordsAux_word_shape s [] (by simp) w hw).2 ' ' (by simp [hcontra])
  simp [isWS] at this

/-- Replacing one nonempty whitespace run by a single space does not change
the word decomposition. -/
theorem wordsAux_replace_run (r b : Str) (hne : r ≠ [])
    (hws : ∀ c ∈ r, isWS c = true) : ∀ (a cur : Str),
    wordsAux cur (a ++ r ++ b) = wordsAux cur (a ++ ' ' :: b) := by
  intro a
  induction a with
  | nil =>
    intro cur
    cases r with
    | nil => exact absurd rfl hne
    | cons c r' =>
      have hc : isWS c = true := hws c (List.mem_cons_self c r')
      have hr' : ∀ d ∈ r', isWS d = true :=
        fun d hd => hws d (List.mem_cons_of_mem c hd)
      by_cases hcur : cur = []
      · simp only [List.nil_append, List.cons_append, wordsAux, hc, space_isWS,
          hcur, if_true, reduceIte]
        exact wordsAux_ws_skip r' b hr'
      · simp only [List.nil_append, List.cons_append, wordsAux, hc, space_isWS,
          if_true, reduceIte, if_neg hcur]
        exact congrArg (cur :: ·) (wordsAux_ws_skip r' b hr')
  | cons d a' ih =>
    intro cur
    by_cases hd : isWS d = true
    · by_cases hcur : cur = []
      · simp only [List.cons_append, wordsAux, hd, hcur, if_true, reduceIte]
        exact ih []
      · simp only [List.cons_append, wordsAux, hd, if_true, reduceIte,
          if_neg hcur]
        exact congrArg (cur :: ·) (ih [])
    · simp only [List.cons_append, wordsAux, hd, reduceIte]
      exact ih (cur ++ [d])

/-- C6: the tokenizer collapses consecutive internal whitespace runs before
splitting: any input containing a nonempty whitespace run tokenizes to the
same token sequence as the same input with that run replaced by a single
space (so `"GET  /x"` is treated identically to `"GET /x"`). -/
theorem tokenize_request_collapses_runs (a r b : Str) (hne : r ≠ [])
    (hws : ∀ c ∈ r, isWS c = true) :
    tokenize_request (a ++ r ++ b) = tokenize_request (a ++ ' ' :: b) := by
  rw [tokenize_request_eq_intersperse, tokenize_request_eq_intersperse]
  rw [wordsAux_replace_run r b hne hws a []]

/-- Witness for C6 at a concrete input: a double space between `"GET"` and
`"/x"` produces the same tokens as a single space. -/
theorem tokenize_request_collapses_runs_witness :
    tokenize_request (['G', 'E', 'T'] ++ [' ', ' '] ++ ['/', 'x']) =
      tokenize_request (['G', 'E', 'T'] ++ ' ' :: ['/', 'x']) :=
  tokenize_request_collapses_runs ['G', 'E', 'T'] [' ', ' '] ['/', 'x']
    (by decide) (by decide)

/-- C9: every emitted token is the single-space separator or a nonempty
space-free string, no two consecutive separator tokens occur, and the
concatenation of all emitted tokens is the whitespace-normalized, stripped
form of the input line. -/
theorem tokenize_request_token_invariants (s : Str) :
    (∀ t ∈ tokenize_request s, t = [' '] ∨ (t ≠ [] ∧ ' ' ∉ t)) ∧
    noConsecSpaceTok (tokenize_request s) ∧
    concatAll (tokenize_request s) = normalizeLine s := by
  refine ⟨?_, ?_, ?_⟩
  · intro t ht
    rw [tokenize_request_eq_intersperse] at ht
    rcases mem_intersperse [' '] _ t ht with h | h
    · left; exact h
    · right
      obtain ⟨hne, hfree⟩ := wordsAux_word_shape s [] (by simp) t h
      refine ⟨hne, fun hsp => ?_⟩
      have := hfree ' ' hsp
      simp [isWS] at this
  · rw [tokenize_request_eq_intersperse]
    exact noConsec_intersperse _ (wordsAux_ne_sep s)
  · rw [tokenize_request]
    exact tokAux_concat (normalizeLine s) []

/-- Witness for C9 at a concrete input: the separator token of
`"a b"` satisfies the shape invariant, and concatenation recovers the
normalized line. -/
theorem tokenize_request_token_invariants_witness :
    ([' '] = [' '] ∨ ([' '] ≠ [] ∧ ' ' ∉ [' '])) ∧
    concatAll (tokenize_request ['a', ' ', 'b']) =
      normalizeLine ['a', ' ', 'b'] :=
  ⟨(tokenize_request_token_invariants ['a', ' ', 'b']).1 [' '] (by decide),
   (tokenize_request_token_invariants ['a', ' ', 'b']).2.2⟩

/-- C3 counterexample: a leading space is *not* preserved as a token; the
input `" A"` tokenizes to the single token `"A"`, with no separator token
for the leading space. -/
theorem tokenize_request_strips_cex :
    tokenize_request [' ', 'A'] = [['A']] ∧
    tokenize_request [' ', 'A'] ≠ [[' '], ['A']] ∧
    tokenize_request [' ', ' '] = [] := by decide

/-- C3 as amended: empty input produces zero tokens; an input of only
spaces produces zero tokens (not separator tokens); and leading/trailing
whitespace is stripped by the tokenizer itself before splitting, so
tokenizing the stripped line gives the same tokens as the raw line. -/
theorem tokenize_request_edge_cases :
    tokenize_request [] = [] ∧
    (∀ s : Str, (∀ c ∈ s, c = ' ') → tokenize_request s = []) ∧
    (∀ s : Str, tokenize_request (pstrip s) = tokenize_request s) := by
  refine ⟨rfl, ?_, ?_⟩
  · intro s hs
    rw [tokenize_request_eq_intersperse]
    have : wordsAux [] s = wordsAux [] ([] ++ s) := by simp
    rw [this, wordsAux_ws_suffix [] s []
      (fun c hc => by rw [hs c hc]; exact space_isWS)]
    rfl
  · intro s
    rw [tokenize_request_eq_intersperse, tokenize_request_eq_intersperse,
      wordsAux_pstrip]

/-- Witness for C3 (amended) at concrete inputs. -/
theorem tokenize_request_edge_cases_witness :
    tokenize_request [' ', ' '] = [] ∧
    tokenize_request (pstrip [' ', 'A']) = tokenize_request [' ', 'A'] :=
  ⟨tokenize_request_edge_cases.2.1 [' ', ' '] (by decide),
   tokenize_request_edge_cases.2.2 [' ', 'A']⟩

/-! ### Span arithmetic -/

theorem drop_eq_cons_of_get? {α : Type} : ∀ {l : List α} {i : Nat} {t : α},
    l.get? i = some t → l.drop i = t :: l.drop (i + 1) := by
  intro l
  induction l with
  | nil => intro i t h; simp at h
  | cons a as ih =>
    intro i t h
    cases i with
    | zero => simp at h; simp [h]
    | succ i' => simpa using ih (by simpa using h)

theorem get?_eq_head?_drop {α : Type} : ∀ (l : List α) (i : Nat),
    l.get? i = (l.drop i).head? := by
  intro l
  induction l with
  | nil => intro i; simp
  | cons a as ih =>
    intro i
    cases i with
    | zero => rfl
    | succ i' => simp [ih i']

theorem slice_self (toks : List Str) (i : Nat) : slice toks i i = [] := by
  simp [slice]

theorem slice_full (toks : List Str) : slice toks 0 toks.length = toks := by
  simp [slice]

theorem slice_cons {toks : List Str} {i j : Nat} {t : Str}
    (h : toks.get? i = some t) (hij : i < j) :
    slice toks i j = t :: slice toks (i + 1) j := by
  rw [slice, slice, drop_eq_cons_of_get? h]
  have hji : j - i = (j - (i + 1)) + 1 := by omega
  rw [hji, List.take_succ_cons]

theorem slice_length {toks : List Str} {i j : Nat} (hj : j ≤ toks.length) :
    (slice toks i j).length = j - i := by
  simp [slice]
  omega

theorem slice_append {toks : List Str} {i k j : Nat} (h1 : i ≤ k) (h2 : k ≤ j) :
    slice toks i j = slice toks i k ++ slice toks k j := by
  rw [slice, slice, slice]
  have hj : j - i = (k - i) + (j - k) := by omega
  rw [hj, List.take_add]
  have hd : (toks.drop i).drop (k - i) = toks.drop k := by
    rw [List.drop_drop]
    congr 1
    omega
  rw [hd]

/-! ### Derivability lemmas -/

theorem sder_nil_inv {G : Grammar} {w : List Str} (h : SDer G [] w) : w = [] := by
  cases h
  rfl

/-- Derivability only depends on the production list, monotonically. -/
theorem sder_mono {G G' : Grammar} (hsub : ∀ p ∈ G.prods, p ∈ G'.prods)
    {form : List Symbol} {w : List Str} (h : SDer G form w) :
    SDer G' form w := by
  induction h with
  | nil => exact SDer.nil
  | tm _ ih => exact SDer.tm ih
  | nt hmem _ _ ih1 ih2 => exact SDer.nt (hsub _ hmem) ih1 ih2

/-- Prepend a single-symbol derivation to a sentential-form derivation. -/
theorem sder_cons {G : Grammar} {s : Symbol} {rest : List Symbol}
    {w1 w2 : List Str} (h1 : SDer G [s] w1) (h2 : SDer G rest w2) :
    SDer G (s :: rest) (w1 ++ w2) := by
  cases h1 with
  | tm h1' =>
    have := sder_nil_inv h1'
    subst this
    exact SDer.tm h2
  | nt hmem hb hr =>
    have := sder_nil_inv hr
    subst this
    rw [List.append_nil]
    exact SDer.nt hmem hb h2

/-! ### Chart soundness -/

/-- Every item of `c` is sound: its span is ordered and its non-terminal
derives exactly that token span. -/
def chartSound (G : Grammar) (toks : List Str) (c : Finset ChartItem) : Prop :=
  ∀ x ∈ c, x.2.1 ≤ x.2.2 ∧ SDer G [Symbol.nt x.1] (slice toks x.2.1 x.2.2)

theorem mem_chartUniverse {G : Grammar} {toks : List Str} {x : ChartItem} :
    x ∈ chartUniverse G toks ↔
      x.1 ∈ G.prods.map Prod.fst ∧ x.2.1 ≤ toks.length ∧
        x.2.2 ≤ toks.length ∧ x.2.1 ≤ x.2.2 := by
  obtain ⟨m, i, j⟩ := x
  simp [chartUniverse, Finset.mem_filter, Finset.mem_product, Nat.lt_succ_iff]
  tauto

theorem matchSym_sound {G : Grammar} {toks : List Str} {c : Finset ChartItem}
    (hc : chartSound G toks c) {s : Symbol} {i k : Nat}
    (h : matchSym c toks s i k = true) :
    i ≤ k ∧ SDer G [s] (slice toks i k) := by
  cases s with
  | tm t =>
    simp only [matchSym, Bool.and_eq_true, decide_eq_true_eq] at h
    obtain ⟨hk, hget⟩ := h
    subst hk
    constructor
    · omega
    · rw [slice_cons hget (by omega), slice_self]
      exact SDer.tm SDer.nil
  | nt m =>
    simp only [matchSym, decide_eq_true_eq] at h
    exact hc _ h

theorem matchBody_sound {G : Grammar} {toks : List Str} {c : Finset ChartItem}
    (hc : chartSound G toks c) :
    ∀ (body : List Symbol) (i j : Nat), i ≤ j →
      matchBody c toks body i j = true → SDer G body (slice toks i j) := by
  intro body
  induction body with
  | nil =>
    intro i j _ h
    simp only [matchBody, decide_eq_true_eq] at h
    subst h
    rw [slice_self]
    exact SDer.nil
  | cons s rest ih =>
    intro i j hij h
    simp only [matchBody, List.any_eq_true, Bool.and_eq_true] at h
    obtain ⟨k, hk, hsym, hbody⟩ := h
    rw [List.mem_range'_1] at hk
    have hik : i ≤ k := hk.1
    have hkj : k ≤ j := by omega
    obtain ⟨-, hder1⟩ := matchSym_sound hc hsym
    have hder2 := ih k j hkj hbody
    rw [slice_append hik hkj]
    exact sder_cons hder1 hder2

theorem chartStep_extensive (G : Grammar) (toks : List Str)
    (c : Finset ChartItem) : c ⊆ chartStep G toks c :=
  Finset.subset_union_left

theorem chartStep_sound {G : Grammar} {toks : List Str} {c : Finset ChartItem}
    (hc : chartSound G toks c) : chartSound G toks (chartStep G toks c) := by
  intro x hx
  rcases Finset.mem_union.mp hx with hx' | hx'
  · exact hc x hx'
  · rw [Finset.mem_filter] at hx'
    obtain ⟨hu, hany⟩ := hx'
    rw [List.any_eq_true] at hany
    obtain ⟨p, hp, hmatch⟩ := hany
    rw [Bool.and_eq_true, decide_eq_true_eq] at hmatch
    obtain ⟨hhead, hbody⟩ := hmatch
    have hij : x.2.1 ≤ x.2.2 := (mem_chartUniverse.mp hu).2.2.2
    refine ⟨hij, ?_⟩
    have hder := matchBody_sound hc p.2 x.2.1 x.2.2 hij hbody
    have : SDer G (Symbol.nt x.1 :: []) (slice toks x.2.1 x.2.2 ++ []) :=
      SDer.nt (hhead ▸ hp) hder SDer.nil
    simpa using this

/-- Soundness of the completed chart. -/
theorem chart_sound (G : Grammar) (toks : List Str) :
    chartSound G toks (chart G toks) := by
  rw [chart]
  generalize (chartUniverse G toks).card + 1 = K
  induction K with
  | zero => intro x hx; simp at hx
  | succ k ih =>
    rw [Function.iterate_succ_apply']
    exact chartStep_sound ih

/-! ### Chart fixed point -/

theorem iterate_fixed_from {α : Type} {f : α → α} {x : α} {k : Nat}
    (h : f (f^[k] x) = f^[k] x) : ∀ m, f^[k + m] x = f^[k] x := by
  intro m
  induction m with
  | zero => rfl
  | succ m' ih =>
    have : k + (m' + 1) = (k + m') + 1 := by omega
    rw [this, Function.iterate_succ_apply', ih, h]

theorem iterate_chartStep_subset (G : Grammar) (toks : List Str) :
    ∀ K, (chartStep G toks)^[K] ∅ ⊆ chartUniverse G toks := by
  intro K
  induction K with
  | zero => simp
  | succ k ih =>
    rw [Function.iterate_succ_apply']
    exact Finset.union_subset ih (Finset.filter_subset _ _)

/-- The completed chart is a fixed point of the closure step. -/
theorem chart_isFix (G : Grammar) (toks : List Str) :
    chartStep G toks (chart G toks) = chart G toks := by
  have key : ∃ k, k ≤ (chartUniverse G toks).card ∧
      (chartStep G toks)^[k + 1] ∅ = (chartStep G toks)^[k] ∅ := by
    by_contra hno
    push_neg at hno
    have grow : ∀ k, k ≤ (chartUniverse G toks).card + 1 →
        k ≤ ((chartStep G toks)^[k] ∅).card := by
      intro k
      induction k with
      | zero => intro _; omega
      | succ k' ih =>
        intro hk
        have h1 : k' ≤ ((chartStep G toks)^[k'] ∅).card := ih (by omega)
        have hsub : (chartStep G toks)^[k'] ∅ ⊆ (chartStep G toks)^[k' + 1] ∅ := by
          rw [Function.iterate_succ_apply']
          exact chartStep_extensive G toks _
        have hne : (chartStep G toks)^[k' + 1] ∅ ≠ (chartStep G toks)^[k'] ∅ :=
          hno k' (by omega)
        have hlt : ((chartStep G toks)^[k'] ∅).card <
            ((chartStep G toks)^[k' + 1] ∅).card :=
          Finset.card_lt_card (Finset.ssubset_iff_subset_ne.mpr ⟨hsub, fun h => hne h.symm⟩)
        omega
    have hbig := grow ((chartUniverse G toks).card + 1) (le_refl _)
    have hle := Finset.card_le_card
      (iterate_chartStep_subset G toks ((chartUniverse G toks).card + 1))
    omega
  obtain ⟨k, hk, hfixk⟩ := key
  have hfp : chartStep G toks ((chartStep G toks)^[k] ∅) =
      (chartStep G toks)^[k] ∅ :=
    (Function.iterate_succ_apply' (chartStep G toks) k ∅).symm.trans hfixk
  have hchart : chart G toks = (chartStep G toks)^[k] ∅ := by
    rw [chart]
    have hstab := iterate_fixed_from hfp ((chartUniverse G toks).card + 1 - k)
    rw [← hstab]
    congr 1
    omega
  rw [hchart]
  exact hfp

/-! ### Chart completeness -/

theorem head?_of_take_cons {α : Type} {l : List α} {m : Nat} {t : α}
    {r : List α} (h : l.take m = t :: r) : l.head? = some t := by
  cases m with
  | zero => simp at h
  | succ m' =>
    cases l with
    | nil => simp at h
    | cons a l' =>
      rw [List.take_succ_cons] at h
      rw [List.head?_cons]
      exact congrArg some (List.cons.injEq .. ▸ h |>.1)

/-- An item justified by the current chart is present after one more
closure step. -/
theorem mem_chartStep_of_just {G : Grammar} {toks : List Str}
    {c : Finset ChartItem} {n : String} {body : List Symbol} {i j : Nat}
    (hp : (n, body) ∈ G.prods) (hij : i ≤ j) (hjn : j ≤ toks.length)
    (hmb : matchBody c toks body i j = true) :
    (n, i, j) ∈ chartStep G toks c := by
  apply Finset.mem_union_right
  rw [Finset.mem_filter]
  refine ⟨?_, ?_⟩
  · rw [mem_chartUniverse]
    exact ⟨List.mem_map_of_mem Prod.fst hp, Nat.le_trans hij hjn, hjn, hij⟩
  · rw [List.any_eq_true]
    exact ⟨(n, body), hp, by simp [hmb]⟩

/-- Completeness of the fixed-point chart: whatever is derivable over a
span is matched by the chart. -/
theorem matchBody_complete {G : Grammar} {toks : List Str}
    {c : Finset ChartItem} (hfix : chartStep G toks c = c)
    {form : List Symbol} {w : List Str} (h : SDer G form w) :
    ∀ i j, i ≤ j → j ≤ toks.length → slice toks i j = w →
      matchBody c toks form i j = true := by
  induction h with
  | nil =>
    intro i j hij hjn hs
    have hlen : (slice toks i j).length = j - i := slice_length hjn
    rw [hs] at hlen
    simp at hlen
    have : i = j := by omega
    simp [matchBody, this]
  | @tm t rest w' hrest ih =>
    intro i j hij hjn hs
    have hlen : (slice toks i j).length = j - i := slice_length hjn
    rw [hs] at hlen
    simp at hlen
    have hpos : i < j := by omega
    have hget : toks.get? i = some t := by
      rw [get?_eq_head?_drop]
      exact head?_of_take_cons hs
    have hs' : slice toks (i + 1) j = w' := by
      have hc := slice_cons hget hpos
      rw [hc] at hs
      exact (List.cons.injEq .. ▸ hs).2
    have hmb := ih (i + 1) j (by omega) hjn hs'
    rw [matchBody, List.any_eq_true]
    refine ⟨i + 1, ?_, ?_⟩
    · rw [List.mem_range'_1]; omega
    · rw [Bool.and_eq_true]
      have hget2 : toks[i]? = some t := by
        rw [← List.get?_eq_getElem?]
        exact hget
      exact ⟨by simp [matchSym, hget2], hmb⟩
  | @nt n body rest w1 w2 hmem hbody hrest ih1 ih2 =>
    intro i j hij hjn hs
    have hlen : (slice toks i j).length = j - i := slice_length hjn
    rw [hs] at hlen
    simp at hlen
    have hkj : i + w1.length ≤ j := by omega
    have hsplit : slice toks i (i + w1.length) ++ slice toks (i + w1.length) j =
        w1 ++ w2 := by
      rw [← slice_append (by omega) hkj, hs]
    have hlen1 : (slice toks i (i + w1.length)).length = w1.length := by
      rw [slice_length (by omega)]
      omega
    obtain ⟨hs1, hs2⟩ := List.append_inj hsplit hlen1
    have hmb1 := ih1 i (i + w1.length) (by omega) (by omega) hs1
    have hitem : (n, i, i + w1.length) ∈ c :=
      hfix ▸ mem_chartStep_of_just hmem (by omega) (by omega) hmb1
    have hmb2 := ih2 (i + w1.length) j hkj hjn hs2
    rw [matchBody, List.any_eq_true]
    refine ⟨i + w1.length, ?_, ?_⟩
    · rw [List.mem_range'_1]; omega
    · rw [Bool.and_eq_true]
      exact ⟨by simp [matchSym, hitem], hmb2⟩

/-- Correctness of the chart recognizer: the start symbol is recorded over
the full token span iff the token sequence is derivable from the start
symbol. -/
theorem chart_recognizes (G : Grammar) (toks : List Str) :
    ((G.start, 0, toks.length) ∈ chart G toks) ↔
      SDer G [Symbol.nt G.start] toks := by
  constructor
  · intro h
    have hx := chart_sound G toks _ h
    simpa [slice_full] using hx.2
  · intro h
    cases h with
    | @nt n body rest w1 w2 hmem hbody hrest =>
      have hw2 : w2 = [] := sder_nil_inv hrest
      subst hw2
      simp only [List.append_nil] at *
      have hmb := matchBody_complete (chart_isFix G w1) hbody 0 w1.length
        (by omega) (le_refl _) (slice_full w1)
      have := mem_chartStep_of_just hmem (by omega) (le_refl _) hmb
      rw [chart_isFix G w1] at this
      exact this

/-- `is_valid` is exactly chart membership of the start symbol over the
full span. -/
theorem validate_isValid_iff (G : Grammar) (now line : Str) :
    (validate_request G now line).is_valid = true ↔
      (G.start, 0, (tokenize_request line).length) ∈
        chart G (tokenize_request line) := by
  rw [validate_request]
  by_cases h : (G.start, 0, (tokenize_request line).length) ∈
      chart G (tokenize_request line)
  · simp [h]
  · simp [h]

/-- C1: validation reports `is_valid = true` iff the token sequence
produced by the tokenizer is derivable from the grammar's start symbol,
i.e. iff the chart records the start symbol over the full token span;
no other condition makes validation succeed. -/
theorem validation_succeeds_iff_derivable (G : Grammar) (now line : Str) :
    (validate_request G now line).is_valid = true ↔
      SDer G [Symbol.nt G.start] (tokenize_request line) :=
  (validate_isValid_iff G now line).trans
    (chart_recognizes G (tokenize_request line))

/-- C8: validation is monotone under grammar extension: adding a new
alternative production for an existing non-terminal never turns an
accepted line into a rejected one. -/
theorem validation_monotone_under_extension (G : Grammar) (n : String)
    (body : List Symbol) (now line : Str) (_hex : ∃ b, (n, b) ∈ G.prods)
    (hv : (validate_request G now line).is_valid = true) :
    (validate_request (addProduction G n body) now line).is_valid = true := by
  rw [validate_isValid_iff] at hv ⊢
  rw [chart_recognizes] at hv ⊢
  have hstart : (addProduction G n body).start = G.start := rfl
  rw [hstart]
  refine sder_mono ?_ hv
  intro p hp
  simp only [addProduction, List.mem_append]
  exact Or.inl hp

/-- Witness for C8: extending spec Example 1's grammar with a new
alternative `S → "Z"` still accepts the line `"A B"`. -/
theorem validation_monotone_under_extension_witness :
    (validate_request (addProduction exampleGrammar "S" [Symbol.tm ['Z']])
      [] ['A', ' ', 'B']).is_valid = true :=
  validation_monotone_under_extension exampleGrammar "S" [Symbol.tm ['Z']]
    [] ['A', ' ', 'B']
    ⟨[Symbol.tm ['A'], Symbol.tm [' '], Symbol.tm ['B']], by decide⟩
    (by decide)

/-! ### Well-formed derivation forests -/

theorem wfseq_le {G : Grammar} {toks : List Str} {body : List Symbol}
    {i j : Nat} {cs : List PTree} (h : WFSeq G toks body i j cs) : i ≤ j := by
  induction h with
  | nil => exact le_refl _
  | tm _ _ ih => omega
  | nt _ _ _ ih1 ih2 => omega

theorem wfseq_nil_inv {G : Grammar} {toks : List Str} {i j : Nat}
    {cs : List PTree} (h : WFSeq G toks [] i j cs) : cs = [] ∧ i = j := by
  cases h
  exact ⟨rfl, rfl⟩

theorem theight_pos : ∀ t : PTree, 1 ≤ theight t := by
  intro t
  cases t with
  | leaf _ _ => exact le_refl _
  | node _ _ _ cs => simp [theight]

/-- The forest of a well-formed derivation realizes the symbol sequence. -/
theorem wfseq_symOf {G : Grammar} {toks : List Str} {body : List Symbol}
    {i j : Nat} {cs : List PTree} (h : WFSeq G toks body i j cs) :
    cs.map symOf = body := by
  induction h with
  | nil => rfl
  | tm _ _ ih => simp [symOf, ih]
  | nt _ _ _ ih1 ih2 => simp [symOf, ih2]

/-- The spans of a well-formed forest tile its span. -/
theorem wfseq_chain {G : Grammar} {toks : List Str} {body : List Symbol}
    {i j : Nat} {cs : List PTree} (h : WFSeq G toks body i j cs) :
    chainOK i j cs := by
  induction h with
  | nil => rfl
  | tm _ _ ih => exact ⟨rfl, ih⟩
  | nt _ _ _ ih1 ih2 => exact ⟨rfl, ih2⟩

/-- Every tree of a well-formed forest satisfies the span-coverage
invariant. -/
theorem wfseq_spanOK {G : Grammar} {toks : List Str} {body : List Symbol}
    {i j : Nat} {cs : List PTree} (h : WFSeq G toks body i j cs) :
    spanOKList toks cs := by
  induction h with
  | nil => trivial
  | tm hget _ ih => exact ⟨hget, ih⟩
  | nt _ hbody _ ih1 ih2 => exact ⟨⟨wfseq_chain hbody, ih1⟩, ih2⟩

/-- The leaves of a well-formed forest are exactly the derived token
span. -/
theorem wfseq_leaves {G : Grammar} {toks : List Str} {body : List Symbol}
    {i j : Nat} {cs : List PTree} (h : WFSeq G toks body i j cs) :
    leavesList cs = slice toks i j := by
  induction h with
  | nil => rw [slice_self]; rfl
  | @tm t rest i' j' ts hget hrest ih =>
    have hlt : i' < j' := Nat.lt_of_lt_of_le (by omega) (wfseq_le hrest)
    rw [slice_cons hget hlt]
    simp [leavesList, leavesOf, ih]
  | @nt n body' rest i' k j' cs' ts hmem hbody hrest ih1 ih2 =>
    rw [slice_append (wfseq_le hbody) (wfseq_le hrest)]
    simp [leavesList, leavesOf, ih1, ih2]

/-- Combine a one-tree derivation with a forest derivation. -/
theorem wfseq_cons {G : Grammar} {toks : List Str} {s : Symbol}
    {rest : List Symbol} {i k j : Nat} {t : PTree} {ts : List PTree}
    (h1 : WFSeq G toks [s] i k [t]) (h2 : WFSeq G toks rest k j ts) :
    WFSeq G toks (s :: rest) i j (t :: ts) := by
  cases h1 with
  | tm hget hrest =>
    obtain ⟨-, hik⟩ := wfseq_nil_inv hrest
    subst hik
    exact WFSeq.tm hget h2
  | nt hmem hbody hrest =>
    obtain ⟨-, hik⟩ := wfseq_nil_inv hrest
    subst hik
    exact WFSeq.nt hmem hbody h2

/-- The start and end of the span of every tree returned by the builder
are the requested ones. -/
theorem buildSym_span {G : Grammar} {toks : List Str} {f : Nat} {s : Symbol}
    {i k : Nat} {t : PTree} (h : t ∈ buildSym G toks f s i k) :
    spanStart t = i ∧ spanEnd t = k := by
  cases f with
  | zero => simp [buildSym] at h
  | succ f' =>
    cases s with
    | tm t' =>
      rw [buildSym] at h
      split at h
      · rename_i hcond
        simp at h
        subst h
        exact ⟨rfl, by simp [spanEnd, hcond.1.symm]⟩
      · simp at h
    | nt n =>
      rw [buildSym] at h
      rw [List.mem_flatMap] at h
      obtain ⟨p, -, hmem⟩ := h
      rw [List.mem_map] at hmem
      obtain ⟨cs, -, ht⟩ := hmem
      subst ht
      exact ⟨rfl, rfl⟩

/-- Characterization of the tree builder: a tree is returned for a symbol
and span iff it is a well-formed derivation tree of that symbol over that
span within the depth bound; likewise for forests. -/
theorem build_characterization (G : Grammar) (toks : List Str) : ∀ f : Nat,
    (∀ s i j t, t ∈ buildSym G toks f s i j ↔
      (WFSeq G toks [s] i j [t] ∧ theight t ≤ f)) ∧
    (∀ body i j cs, cs ∈ buildSeqWith (buildSym G toks f) body i j ↔
      (WFSeq G toks body i j cs ∧ theightList cs ≤ f)) := by
  have hseq : ∀ f : Nat,
      (∀ s i j t, t ∈ buildSym G toks f s i j ↔
        (WFSeq G toks [s] i j [t] ∧ theight t ≤ f)) →
      (∀ body i j cs, cs ∈ buildSeqWith (buildSym G toks f) body i j ↔
        (WFSeq G toks body i j cs ∧ theightList cs ≤ f)) := by
    intro f hsym body
    induction body with
    | nil =>
      intro i j cs
      constructor
      · intro h
        rw [buildSeqWith] at h
        split at h
        · rename_i hij
          subst hij
          simp at h
          subst h
          exact ⟨WFSeq.nil, by simp [theightList]⟩
        · simp at h
      · rintro ⟨hwf, -⟩
        obtain ⟨hcs, hij⟩ := wfseq_nil_inv hwf
        subst hcs
        subst hij
        simp [buildSeqWith]
    | cons s rest ih =>
      intro i j cs
      constructor
      · intro h
        rw [buildSeqWith, List.mem_flatMap] at h
        obtain ⟨k, -, h⟩ := h
        rw [List.mem_flatMap] at h
        obtain ⟨t, ht, h⟩ := h
        rw [List.mem_map] at h
        obtain ⟨cs', hcs', hcons⟩ := h
        subst hcons
        obtain ⟨hwt, hht⟩ := (hsym s i k t).mp ht
        obtain ⟨hwcs, hhcs⟩ := (ih k j cs').mp hcs'
        exact ⟨wfseq_cons hwt hwcs, by simp [theightList]; omega⟩
      · rintro ⟨hwf, hh⟩
        cases hwf with
        | @tm t' rest' i' j' ts hget hrest =>
          rw [buildSeqWith, List.mem_flatMap]
          have hij : i + 1 ≤ j := wfseq_le hrest
          refine ⟨i + 1, by rw [List.mem_range'_1]; omega, ?_⟩
          rw [List.mem_flatMap]
          have hh1 : 1 ≤ f ∧ theightList ts ≤ f := by
            simp [theightList] at hh
            exact ⟨Nat.le_trans (theight_pos _) hh.1, hh.2⟩
          refine ⟨PTree.leaf t' i, ?_, ?_⟩
          · exact (hsym _ i (i + 1) _).mpr
              ⟨WFSeq.tm hget WFSeq.nil, by simpa [theight] using hh1.1⟩
          · rw [List.mem_map]
            exact ⟨ts, (ih (i + 1) j ts).mpr ⟨hrest, hh1.2⟩, rfl⟩
        | @nt n body' rest' i' k j' cs' ts hmem hbody hrest =>
          rw [buildSeqWith, List.mem_flatMap]
          have hik : i ≤ k := wfseq_le hbody
          have hkj : k ≤ j := wfseq_le hrest
          refine ⟨k, by rw [List.mem_range'_1]; omega, ?_⟩
          rw [List.mem_flatMap]
          have hh1 : theight (PTree.node n i k cs') ≤ f ∧ theightList ts ≤ f := by
            simp [theightList] at hh
            exact hh
          refine ⟨PTree.node n i k cs', ?_, ?_⟩
          · exact (hsym _ i k _).mpr ⟨WFSeq.nt hmem hbody WFSeq.nil, hh1.1⟩
          · rw [List.mem_map]
            exact ⟨ts, (ih k j ts).mpr ⟨hrest, hh1.2⟩, rfl⟩
  intro f
  induction f with
  | zero =>
    have hsym0 : ∀ s i j t, t ∈ buildSym G toks 0 s i j ↔
        (WFSeq G toks [s] i j [t] ∧ theight t ≤ 0) := by
      intro s i j t
      constructor
      · intro h; simp [buildSym] at h
      · rintro ⟨-, hh⟩
        exact absurd (Nat.le_trans (theight_pos t) hh) (by omega)
    exact ⟨hsym0, hseq 0 hsym0⟩
  | succ f' ihf =>
    have hsym : ∀ s i j t, t ∈ buildSym G toks (f' + 1) s i j ↔
        (WFSeq G toks [s] i j [t] ∧ theight t ≤ f' + 1) := by
      intro s i j t
      cases s with
      | tm t' =>
        constructor
        · intro h
          rw [buildSym] at h
          split at h
          · rename_i hcond
            simp at h
            subst h
            refine ⟨?_, by simp [theight]⟩
            rw [hcond.1]
            exact WFSeq.tm hcond.2 WFSeq.nil
          · simp at h
        · rintro ⟨hwf, -⟩
          cases hwf with
          | tm hget hrest =>
            obtain ⟨-, hij⟩ := wfseq_nil_inv hrest
            rw [buildSym]
            rw [if_pos ⟨hij.symm, hget⟩]
            simp
      | nt n =>
        constructor
        · intro h
          rw [buildSym, List.mem_flatMap] at h
          obtain ⟨p, hp, h⟩ := h
          rw [List.mem_filter, decide_eq_true_eq] at hp
          rw [List.mem_map] at h
          obtain ⟨cs, hcs, ht⟩ := h
          subst ht
          obtain ⟨hwcs, hhcs⟩ :=
            ((hseq f' ihf.1) p.2 i j cs).mp hcs
          refine ⟨?_, by simpa [theight, theightList] using hhcs⟩
          exact WFSeq.nt (hp.2 ▸ hp.1) hwcs WFSeq.nil
        · rintro ⟨hwf, hh⟩
          cases hwf with
          | @nt n' body' rest' i' k j' cs ts hmem hbody hrest =>
            obtain ⟨hts, hkj⟩ := wfseq_nil_inv hrest
            subst hkj
            rw [buildSym, List.mem_flatMap]
            refine ⟨(n, body'), by rw [List.mem_filter]; exact ⟨hmem, by simp⟩, ?_⟩
            rw [List.mem_map]
            refine ⟨cs, ?_, rfl⟩
            refine ((hseq f' ihf.1) body' i _ cs).mpr ⟨hbody, ?_⟩
            simpa [theight, theightList] using hh
    exact ⟨hsym, hseq (f' + 1) hsym⟩

/-! ### The builder returns one tree per distinct derivation -/

theorem nodup_flatMap' {α β : Type} {l : List α} {f : α → List β}
    (h1 : l.Nodup) (h2 : ∀ a ∈ l, (f a).Nodup)
    (h3 : ∀ a ∈ l, ∀ b ∈ l, a ≠ b → ∀ x ∈ f a, x ∉ f b) :
    (l.flatMap f).Nodup := by
  induction l with
  | nil => simp
  | cons a t ih =>
    rw [List.flatMap_cons, List.nodup_append]
    refine ⟨h2 a (by simp), ?_, ?_⟩
    · exact ih (List.Nodup.of_cons h1)
        (fun b hb => h2 b (List.mem_cons_of_mem a hb))
        (fun b hb c hc hbc => h3 b (List.mem_cons_of_mem a hb)
          c (List.mem_cons_of_mem a hc) hbc)
    · intro x hxa hxt
      rw [List.mem_flatMap] at hxt
      obtain ⟨b, hb, hxb⟩ := hxt
      have hab : a ≠ b := by
        rintro rfl
        exact (List.nodup_cons.mp h1).1 hb
      exact h3 a (by simp) b (List.mem_cons_of_mem a hb) hab x hxa hxb

/-- The builder never lists the same tree (or forest) twice: one tree per
distinct derivation. -/
theorem build_nodup (G : Grammar) (toks : List Str) (hG : G.prods.Nodup) :
    ∀ f : Nat,
    (∀ s i j, (buildSym G toks f s i j).Nodup) ∧
    (∀ body i j, (buildSeqWith (buildSym G toks f) body i j).Nodup) := by
  have hseq : ∀ f : Nat, (∀ s i j, (buildSym G toks f s i j).Nodup) →
      (∀ body i j, (buildSeqWith (buildSym G toks f) body i j).Nodup) := by
    intro f hsym body
    induction body with
    | nil =>
      intro i j
      rw [buildSeqWith]
      split <;> simp
    | cons s rest ih =>
      intro i j
      rw [buildSeqWith]
      apply nodup_flatMap'
      · simp [List.nodup_range']
      · intro k _
        apply nodup_flatMap'
        · exact hsym s i k
        · intro t _
          exact List.Nodup.map (fun x y h => by injection h) (ih k j)
        · intro t1 _ t2 _ hne x hx1 hx2
          rw [List.mem_map] at hx1 hx2
          obtain ⟨cs1, -, hx1'⟩ := hx1
          obtain ⟨cs2, -, hx2'⟩ := hx2
          rw [← hx1'] at hx2'
          injection hx2' with hh htl
          exact hne hh.symm
      · intro k1 _ k2 _ hne x hx1 hx2
        rw [List.mem_flatMap] at hx1 hx2
        obtain ⟨t1, ht1, hx1'⟩ := hx1
        obtain ⟨t2, ht2, hx2'⟩ := hx2
        rw [List.mem_map] at hx1' hx2'
        obtain ⟨cs1, -, hx1''⟩ := hx1'
        obtain ⟨cs2, -, hx2''⟩ := hx2'
        rw [← hx1''] at hx2''
        injection hx2'' with hh htl
        apply hne
        rw [← (buildSym_span ht1).2, ← (buildSym_span ht2).2, hh]
  intro f
  induction f with
  | zero =>
    have hsym0 : ∀ s i j, (buildSym G toks 0 s i j).Nodup := by
      intro s i j
      simp [buildSym]
    exact ⟨hsym0, hseq 0 hsym0⟩
  | succ f' ihf =>
    have hsym : ∀ s i j, (buildSym G toks (f' + 1) s i j).Nodup := by
      intro s i j
      cases s with
      | tm t' =>
        rw [buildSym]
        split <;> simp
      | nt n =>
        rw [buildSym]
        apply nodup_flatMap'
        · exact List.Nodup.filter _ hG
        · intro p _
          refine List.Nodup.map (fun x y h => by injection h) ?_
          exact hseq f' ihf.1 p.2 i j
        · intro p1 hp1 p2 hp2 hne x hx1 hx2
          rw [List.mem_map] at hx1 hx2
          obtain ⟨cs1, hcs1, hx1'⟩ := hx1
          obtain ⟨cs2, hcs2, hx2'⟩ := hx2
          rw [← hx1'] at hx2'
          injection hx2' with e1 e2 e3 hcseq
          subst hcseq
          rw [List.mem_filter, decide_eq_true_eq] at hp1 hp2
          obtain ⟨hwf1, -⟩ := ((build_characterization G toks f').2 p1.2 i j cs2).mp hcs1
          obtain ⟨hwf2, -⟩ := ((build_characterization G toks f').2 p2.2 i j cs2).mp hcs2
          have hbodyeq : p1.2 = p2.2 := by
            rw [← wfseq_symOf hwf1, ← wfseq_symOf hwf2]
          exact hne (Prod.ext (hp1.2.trans hp2.2.symm) hbodyeq)
    exact ⟨hsym, hseq (f' + 1) hsym⟩

/-! ### Claimed properties of validation -/

/-- The trees returned by a successful validation. -/
theorem validate_parse_trees_eq {G : Grammar} {now line : Str}
    (h : (G.start, 0, (tokenize_request line).length) ∈
      chart G (tokenize_request line)) :
    (validate_request G now line).parse_trees =
      buildSym G (tokenize_request line)
        (buildFuel G (tokenize_request line)) (Symbol.nt G.start) 0
        (tokenize_request line).length := by
  rw [validate_request]
  simp [h]

/-- C2: whenever recognition succeeds, every tree returned by the parse
tree builder satisfies the span-coverage invariant (leaves carry exactly
one input token each with matching span; children spans are contiguous,
non-overlapping and union to the parent span), and its leaves concatenated
in order reproduce the token sequence. -/
theorem parse_trees_span_invariant (G : Grammar) (now line : Str) (t : PTree)
    (hvalid : (validate_request G now line).is_valid = true)
    (hmem : t ∈ (validate_request G now line).parse_trees) :
    spanOK (tokenize_request line) t ∧
      leavesOf t = tokenize_request line := by
  have hchart := (validate_isValid_iff G now line).mp hvalid
  rw [validate_parse_trees_eq hchart] at hmem
  obtain ⟨hwf, -⟩ :=
    ((build_characterization G (tokenize_request line)
      (buildFuel G (tokenize_request line))).1 _ _ _ _).mp hmem
  constructor
  · exact (wfseq_spanOK hwf).1
  · have hl := wfseq_leaves hwf
    rw [slice_full] at hl
    simpa [leavesList] using hl

/-- Witness for C2 on spec Example 1: grammar `S → "A" SP "B"`, line
`"A B"`. -/
theorem parse_trees_span_invariant_witness :
    spanOK (tokenize_request ['A', ' ', 'B'])
      (PTree.node "S" 0 3 [PTree.leaf ['A'] 0, PTree.leaf [' '] 1,
        PTree.leaf ['B'] 2]) ∧
    leavesOf (PTree.node "S" 0 3 [PTree.leaf ['A'] 0, PTree.leaf [' '] 1,
        PTree.leaf ['B'] 2]) = tokenize_request ['A', ' ', 'B'] :=
  parse_trees_span_invariant exampleGrammar [] ['A', ' ', 'B'] _
    (by decide)
    (by rw [show (validate_request exampleGrammar [] ['A', ' ', 'B']).parse_trees
          = [PTree.node "S" 0 3 [PTree.leaf ['A'] 0, PTree.leaf [' '] 1,
              PTree.leaf ['B'] 2]] from rfl]
        exact List.mem_cons_self _ _)

/-- C7: all justifications are retained: the builder enumerates exactly
the well-formed derivation trees (one tree per distinct derivation within
the depth bound, with no duplicates), and on an ambiguous grammar
admitting exactly two derivations of the input, validation returns two
trees, not one. -/
theorem ambiguity_all_derivations_returned :
    (∀ (G : Grammar) (toks : List Str) (f : Nat) (s : Symbol) (i j : Nat)
        (t : PTree), t ∈ buildSym G toks f s i j ↔
          (WFSeq G toks [s] i j [t] ∧ theight t ≤ f)) ∧
    (∀ (G : Grammar) (toks : List Str) (f : Nat) (s : Symbol) (i j : Nat),
        G.prods.Nodup → (buildSym G toks f s i j).Nodup) ∧
    (validate_request ambGrammar [] ['x']).parse_trees.length = 2 := by
  refine ⟨?_, ?_, ?_⟩
  · intro G toks f s i j t
    exact (build_characterization G toks f).1 s i j t
  · intro G toks f s i j hG
    exact (build_nodup G toks hG f).1 s i j
  · decide

/-- Witness for C7: the builder output for the ambiguous grammar is
duplicate-free, discharged at a concrete grammar and input. -/
theorem ambiguity_all_derivations_returned_witness :
    (buildSym ambGrammar [['x']] 3 (Symbol.nt "S") 0 1).Nodup :=
  ambiguity_all_derivations_returned.2.1 ambGrammar [['x']] 3
    (Symbol.nt "S") 0 1 (by decide)

/-- The diagnostic analyzer always produces at least one diagnostic. -/
theorem analyzeFailure_ne_nil (G : Grammar) (toks : List Str)
    (c : Finset ChartItem) : analyzeFailure G toks c ≠ [] := by
  rw [analyzeFailure]
  split
  · simp
  · split
    · simp
    · split <;> simp

/-- C4: tokenization and validation are total: every call returns the
token sequence of the line, and every syntactically invalid line yields a
first-class result with `is_valid = false` and a populated `errors` list
rather than an exception. -/
theorem validation_total (G : Grammar) (now line : Str) :
    (validate_request G now line).tokens = tokenize_request line ∧
    ((validate_request G now line).is_valid = true ∨
      ((validate_request G now line).is_valid = false ∧
        (validate_request G now line).errors ≠ [])) := by
  rw [validate_request]
  by_cases h : (G.start, 0, (tokenize_request line).length) ∈
      chart G (tokenize_request line)
  · simp [h]
  · simp [h]
    exact analyzeFailure_ne_nil G (tokenize_request line) _

/-- C5: validation is deterministic: two calls with the same line and
grammar (under any two ambient clock values) agree on the validity flag,
the token list, the parse trees and the diagnostics, in order; no hidden
state influences these fields. -/
theorem validation_deterministic (G : Grammar) (t1 t2 line : Str) :
    (validate_request G t1 line).is_valid =
        (validate_request G t2 line).is_valid ∧
    (validate_request G t1 line).tokens = (validate_request G t2 line).tokens ∧
    (validate_request G t1 line).parse_trees =
        (validate_request G t2 line).parse_trees ∧
    (validate_request G t1 line).errors = (validate_request G t2 line).errors := by
  rw [validate_request, validate_request]
  by_cases h : (G.start, 0, (tokenize_request line).length) ∈
      chart G (tokenize_request line)
  · simp [h]
  · simp [h]

/-! ### Node-count decomposition -/

theorem count_decomposition_aux : ∀ N : Nat,
    (∀ t : TSParseTree, sizeOf t ≤ N →
      getNodeCount t = getNonTerminalCount t + getTerminalCount t) ∧
    (∀ cs : List TSParseTree, sizeOf cs ≤ N →
      nodeCountList cs = ntCountList cs + tCountList cs) := by
  intro N
  induction N with
  | zero =>
    constructor
    · intro t ht
      cases t with
      | mk l cs => simp at ht
    · intro cs hcs
      cases cs with
      | nil => rfl
      | cons t ts => simp at hcs
  | succ n ih =>
    constructor
    · intro t ht
      cases t with
      | mk l cs =>
        have hcs : sizeOf cs ≤ n := by
          simp at ht
          omega
        cases cs with
        | nil =>
          simp [getNodeCount, nodeCountList, getNonTerminalCount,
            getTerminalCount]
        | cons c cs' =>
          have hlist := ih.2 (c :: cs') hcs
          simp only [getNodeCount, getNonTerminalCount, getTerminalCount]
          omega
    · intro cs hcs
      cases cs with
      | nil => rfl
      | cons t ts =>
        have hsz : sizeOf t ≤ n ∧ sizeOf ts ≤ n := by
          simp at hcs
          omega
        have h1 := ih.1 t hsz.1
        have h2 := ih.2 ts hsz.2
        simp only [nodeCountList, ntCountList, tCountList]
        omega

/-- C10: for every parse-tree node, the node-count helpers decompose
exactly: the total node count is the non-terminal count plus the terminal
count, where a node is a terminal iff it has no children. -/
theorem node_count_decomposition (t : TSParseTree) :
    getNodeCount t = getNonTerminalCount t + getTerminalCount t :=
  (count_decomposition_aux (sizeOf t)).1 t (le_refl _)

end CfgQoder
